import Mathlib

/-!
# Verification of the `ttd` task tracker (src/main.rs)

Shallow embedding of the task-resolution core, the add / reschedule command
handlers, the task sort, and the absolute-time parser of the `ttd` CLI task
tracker, together with proofs settling the frozen claims about them.

Modelling conventions:
* `f64` similarity scores are modelled by `ℚ`; the `strsim::jaro_winkler`
  similarity function is an external collaborator and is kept as an explicit
  function parameter `score : String → String → ℚ` (the spec declares the
  similarity function pluggable; only its comparisons against the threshold
  and against other scores are relevant, and `jaro_winkler` never yields NaN).
* `DateTime<Utc>` instants are modelled by `Int` (seconds since the Unix
  epoch); `chrono::NaiveDate` values are modelled by year/month/day triples.
* Rust `String::to_lowercase` is modelled by ASCII lowercasing (all strings in
  the claims are ASCII, where the two coincide).
* A Rust panic (`Option::unwrap` on `None`) is modelled by returning `none`.
-/

namespace Ttd

/-- Model of the Rust `Task` struct: `description: String`,
`time: Option<DateTime<Utc>>` (here seconds since epoch), `done: bool`. -/
structure Task where
  description : String
  time : Option Int
  done : Bool
deriving Repr, DecidableEq, Inhabited

/-- Model of Rust `s.to_lowercase()` restricted to ASCII
(`Char.toLower` lowercases exactly the basic latin letters). -/
def lowerStr (s : String) : String :=
  ⟨s.data.map Char.toLower⟩

/-- `find_by_index` from main.rs: an index resolves iff it is in bounds. -/
def find_by_index (tasks : List Task) (index : Nat) : Option Nat :=
  if index < tasks.length then some index else none

/-- Model of Rust `tasks.iter().enumerate()` starting at `n`. -/
def enumFromN : Nat → List Task → List (Nat × Task)
  | _, [] => []
  | n, t :: ts => (n, t) :: enumFromN (n + 1) ts

/-- The similarity score the matcher computes for one task:
`jaro_winkler(&t.description.to_lowercase(), &query_lower)`. -/
def descScore (score : String → String → ℚ) (query : String) (t : Task) : ℚ :=
  score (lowerStr t.description) (lowerStr query)

/-- Insertion into a sorted list of elements that came later in the original
list: the inserted element goes before the first `b` with `le a b`, so it
precedes every element it ties with.  Used to model Rust's stable
`slice::sort_by` (for a total preorder the output of a stable sort is
uniquely determined, so any stable sorting algorithm models it). -/
def stableInsert (le : α → α → Bool) (a : α) : List α → List α
  | [] => [a]
  | b :: l => if le a b then a :: b :: l else b :: stableInsert le a l

/-- Stable insertion sort; models Rust `sort_by` with comparator `cmp` via
`le a b := cmp a b ≠ Ordering.Greater`. -/
def stableSort (le : α → α → Bool) : List α → List α
  | [] => []
  | a :: l => stableInsert le a (stableSort le l)

/-- The non-strict scan of `find_by_name`: walks the tasks tracking
`(best_match, best_index)` (joined into one `Option`, the code always sets
them together) and `best_score` (initially `0.0`), updating whenever
`score > best_score && score >= threshold`. -/
def bestLoop (score : String → String → ℚ) (query : String) (threshold : ℚ) :
    List Task → Nat → Option (Nat × String) → ℚ → Option (Nat × String) × ℚ
  | [], _, best, bs => (best, bs)
  | t :: ts, i, best, bs =>
    if bs < descScore score query t ∧ threshold ≤ descScore score query t then
      bestLoop score query threshold ts (i + 1) (some (i, t.description))
        (descScore score query t)
    else
      bestLoop score query threshold ts (i + 1) best bs

/-- The `candidates` vector of `find_by_name`'s strict branch: every task
with its index and score, keeping only scores strictly above the
threshold. -/
def candidatesOf (score : String → String → ℚ) (tasks : List Task)
    (query : String) (threshold : ℚ) : List (Nat × String × ℚ) :=
  ((enumFromN 0 tasks).map
    (fun p => (p.1, p.2.description, descScore score query p.2))).filter
    (fun c => decide (threshold < c.2.2))

/-- The candidates sorted by descending score (stable, matching
`candidates.sort_by(|a, b| b.2.partial_cmp(&a.2).unwrap_or(Equal))`). -/
def sortedCandidates (score : String → String → ℚ) (tasks : List Task)
    (query : String) (threshold : ℚ) : List (Nat × String × ℚ) :=
  stableSort (fun a b => decide (b.2.2 ≤ a.2.2))
    (candidatesOf score tasks query threshold)

/-- The strict branch of `find_by_name`: case-insensitive exact match first;
otherwise the best above-threshold candidate is returned as a suggestion
only. -/
def findStrict (score : String → String → ℚ) (tasks : List Task)
    (query : String) (threshold : ℚ) : Option Nat × Option (String × ℚ) :=
  match tasks.findIdx? (fun t => lowerStr t.description == lowerStr query) with
  | some idx => (some idx, none)
  | none =>
    match (sortedCandidates score tasks query threshold).head? with
    | some c => (none, some (c.2.1, c.2.2))
    | none => (none, none)

/-- The non-strict branch of `find_by_name`: single scan keeping the best
score that is `> best_score` and `>= threshold`. -/
def findLoose (score : String → String → ℚ) (tasks : List Task)
    (query : String) (threshold : ℚ) : Option Nat × Option (String × ℚ) :=
  match bestLoop score query threshold tasks 0 none 0 with
  | (some (idx, m), bs) => (some idx, some (m, bs))
  | (none, _) => (none, none)

/-- `find_by_name` from main.rs.  Returns `(resolved index, match info)`. -/
def find_by_name (score : String → String → ℚ) (tasks : List Task)
    (query : String) (threshold : ℚ) (strict : Bool) :
    Option Nat × Option (String × ℚ) :=
  if strict then findStrict score tasks query threshold
  else findLoose score tasks query threshold

/-- The index-lookup dispatch test of `find_task`: the token consists
entirely of ASCII digits, or of a leading `-` followed only by ASCII
digits. -/
def isIndexQuery (q : String) : Bool :=
  q.data.all Char.isDigit ||
    (q.data.head? == some '-' && (q.data.drop 1).all Char.isDigit)

/-- Model of Rust `str::parse::<usize>()` at the call sites of `find_task`:
succeeds on a non-empty all-digit string whose value fits in a `u64`-sized
machine word, fails otherwise (in particular on a leading `-`). -/
def parseUsize? (s : String) : Option Nat :=
  if s.data ≠ [] && s.data.all Char.isDigit then
    let v := s.data.foldl (fun acc c => acc * 10 + (c.toNat - 48)) 0
    if v < 2 ^ 64 then some v else none
  else none

/-- `find_task` from main.rs: returns
`(resolved index, match info, is-index-search flag)`. -/
def find_task (score : String → String → ℚ) (tasks : List Task)
    (query : String) (threshold : ℚ) (strict : Bool) :
    Option Nat × Option (String × ℚ) × Bool :=
  if isIndexQuery query then
    match parseUsize? query with
    | some idx => (find_by_index tasks idx, none, true)
    | none => (none, none, true)
  else
    let r := find_by_name score tasks query threshold strict
    (r.1, r.2, false)

/-- The comparator of `sort_tasks` as a boolean "less or equal"
(`cmp a b ≠ Ordering.Greater`): timed before untimed, timed ordered by
time, equal/absent times tie. -/
def taskLe (a b : Task) : Bool :=
  match a.time, b.time with
  | some t1, some t2 => decide (t1 ≤ t2)
  | some _, none => true
  | none, some _ => false
  | none, none => true

/-- `sort_tasks` from main.rs (stable sort by the time comparator). -/
def sort_tasks (tasks : List Task) : List Task :=
  stableSort taskLe tasks

/-- Replace the element at one position (identity when out of bounds);
models an in-place `sess[idx].field = ...` assignment. -/
def modifyAt (f : α → α) : Nat → List α → List α
  | _, [] => []
  | 0, a :: l => f a :: l
  | n + 1, a :: l => a :: modifyAt f n l

/-- The session-mutation core of the `A` (add) command handler, main.rs lines
471-536, given the already-extracted description and parsed time.  The state
evolution, branch for branch:
* an all-digit description is rejected ("looks like index"), session kept;
* `find_task(sess, &task_desc, match_threshold, true)` is the strict probe;
* a case-sensitive exact description match is overridden (time set, done
  cleared) when `can_override`, otherwise "already exists" keeps the session;
* otherwise, if the probe resolved an index, the handler unwraps the probe's
  match info; in strict probe mode a resolved index comes with `None` match
  info, so the unwrap panics — modelled by `none`;
* otherwise a new task is appended.
Mutating branches re-sort the session; early `return` branches do not. -/
def addToSession (score : String → String → ℚ) (canOverride strictCmp : Bool)
    (threshold : ℚ) (sess : List Task) (desc : String) (time : Option Int) :
    Option (List Task) :=
  if desc.data.all Char.isDigit then
    some sess
  else
    match sess.findIdx? (fun t => t.description == desc) with
    | some idx =>
      if canOverride then
        some (sort_tasks (modifyAt (fun t => { t with time := time, done := false }) idx sess))
      else some sess
    | none =>
      match (find_task score sess desc threshold true).1,
            (find_task score sess desc threshold true).2.1 with
      | some idx, some _ =>
        if strictCmp then some sess
        else if canOverride then
          some (sort_tasks (modifyAt (fun t => { t with time := time, done := false }) idx sess))
        else some sess
      | some _, none => none
      | none, _ =>
        some (sort_tasks (sess ++ [{ description := desc, time := time, done := false }]))

/-- Observable outcome of the `T` (reschedule) command handler, standing in
for its printed messages. -/
inductive TOut where
  /-- `parts` was empty: usage message, nothing else happens. -/
  | usage
  /-- The query resolved: the task's time was changed from `old` to `new`. -/
  | changed (idx : Nat) (oldTime newTime : Option Int)
  /-- `parts[1]` was neither `in` nor `at`: "Unknown time prefix" message. -/
  | badTimeWord (w : String)
  /-- Name search failed with a fuzzy candidate reported. -/
  | suggest (d : String) (s : ℚ)
  /-- Name search failed with no candidate. -/
  | noMatch
  /-- Index search failed. -/
  | idxMiss
deriving Repr, DecidableEq

/-- The `T` (reschedule) command handler, main.rs lines 608-658, over an
already-fetched session.  `parseRel` and `parseAbs` model
`parse_relative_time` and `parse_absolute_time` partially applied to the
ambient clock and offset.  `Except.error` models the `?` propagation of a
time-parse failure.  The time-argument branch requires `parts.len() > 2`;
with two arguments the extra word is never inspected and the time is set to
`None`.  The "Unknown time prefix" branch returns before the final
`sort_tasks`; resolution failures still re-sort. -/
def timeCommand (score : String → String → ℚ) (threshold : ℚ) (strict : Bool)
    (parseRel parseAbs : String → Except String Int)
    (sess : List Task) (parts : List String) :
    Except String (List Task × TOut) :=
  match parts with
  | [] => .ok (sess, .usage)
  | query :: rest =>
    match (find_task score sess query threshold strict).1 with
    | some idx =>
      match rest with
      | w1 :: w2 :: _ =>
        if w1 == "in" then
          match parseRel w2 with
          | .ok t =>
            .ok (sort_tasks (modifyAt (fun tk => { tk with time := some t }) idx sess),
                 .changed idx ((sess.getD idx default).time) (some t))
          | .error e => .error e
        else if w1 == "at" then
          match parseAbs w2 with
          | .ok t =>
            .ok (sort_tasks (modifyAt (fun tk => { tk with time := some t }) idx sess),
                 .changed idx ((sess.getD idx default).time) (some t))
          | .error e => .error e
        else .ok (sess, .badTimeWord w1)
      | _ =>
        .ok (sort_tasks (modifyAt (fun tk => { tk with time := none }) idx sess),
             .changed idx ((sess.getD idx default).time) none)
    | none =>
      if (find_task score sess query threshold strict).2.2 then
        .ok (sort_tasks sess, TOut.idxMiss)
      else
        match (find_task score sess query threshold strict).2.1 with
        | some (d, s) => .ok (sort_tasks sess, TOut.suggest d s)
        | none => .ok (sort_tasks sess, TOut.noMatch)

/-- A calendar date triple, modelling `chrono::NaiveDate` (which is a valid
year/month/day in the proleptic Gregorian calendar). -/
structure Ymd where
  year : Int
  month : Nat
  day : Nat
deriving Repr, DecidableEq

/-- Proleptic Gregorian leap-year rule (as used by `chrono`). -/
def isLeapYear (y : Int) : Bool :=
  (y % 4 == 0 && y % 100 != 0) || y % 400 == 0

/-- Number of days in a month of a given year. -/
def daysInMonth (y : Int) (m : Nat) : Nat :=
  if m = 2 then (if isLeapYear y then 29 else 28)
  else if m = 4 ∨ m = 6 ∨ m = 9 ∨ m = 11 then 30
  else 31

/-- A month/day pair that denotes a real calendar date (year range aside). -/
def validArith (d : Ymd) : Prop :=
  1 ≤ d.month ∧ d.month ≤ 12 ∧ 1 ≤ d.day ∧ d.day ≤ daysInMonth d.year d.month

instance (d : Ymd) : Decidable (validArith d) := by
  unfold validArith; infer_instance

/-- Model of `chrono::NaiveDate::from_ymd_opt` succeeding: a real calendar
date within chrono's representable year range. -/
def validYmd (d : Ymd) : Bool :=
  decide (-262143 ≤ d.year) && decide (d.year ≤ 262142) &&
    decide (validArith d)

/-- The day following a given date (`chrono` date + 1 day). -/
def succDay (d : Ymd) : Ymd :=
  if d.day < daysInMonth d.year d.month then ⟨d.year, d.month, d.day + 1⟩
  else if d.month < 12 then ⟨d.year, d.month + 1, 1⟩
  else ⟨d.year + 1, 1, 1⟩

/-- `n`-fold iteration of `succDay`: models `chrono` date + `Duration::days n`
for `n ≥ 0`. -/
def succIter (d : Ymd) : Nat → Ymd
  | 0 => d
  | n + 1 => succIter (succDay d) n

/-- Day number of a date, with 1970-01-01 as day 0 (the standard
days-from-civil computation, floor divisions written with `Int.ediv`, which
agrees with floor division for the positive divisors used).  This is the
linear time scale underlying `chrono::NaiveDate`: total order on dates,
and `(daysFromCivil d + 3) mod 7` is the weekday (0 = Monday), matching
`Weekday::num_days_from_monday` (1970-01-01 was a Thursday). -/
def daysFromCivil (d : Ymd) : Int :=
  let y : Int := if d.month ≤ 2 then d.year - 1 else d.year
  let era : Int := y / 400
  let yoe : Int := y - era * 400
  let mp : Int := if 2 < d.month then (d.month : Int) - 3 else (d.month : Int) + 9
  let doy : Int := (153 * mp + 2) / 5 + (d.day : Int) - 1
  let doe : Int := yoe * 365 + yoe / 4 - yoe / 100 + doy
  era * 146097 + doe - 719468

/-- The weekday of a date as days from Monday (0 = Monday .. 6 = Sunday),
matching `chrono::Weekday::num_days_from_monday`. -/
def weekdayFromMonday (d : Ymd) : Int :=
  (daysFromCivil d + 3) % 7

/-- The seven optional fields accumulated by the scanning loop of
`parse_absolute_time` (year/month/day/hour/minute/second/weekday). -/
structure AbsFields where
  year : Option Int
  month : Option Nat
  day : Option Nat
  hour : Option Nat
  minute : Option Nat
  second : Option Nat
  weekday : Option Nat
deriving Repr, DecidableEq

/-- All seven fields unset; the scanner's starting state. -/
def emptyFields : AbsFields := ⟨none, none, none, none, none, none, none⟩

/-- One `<number><unit>` step of `parse_absolute_time`'s scanning loop:
range-check the number and store it in the unit's field, erroring with the
exact message of the Rust code; unrecognized unit letters are silently
skipped. -/
def applyUnit (c : Char) (num : Nat) (st : AbsFields) : Except String AbsFields :=
  if c = 'y' then
    if 9999 < num then .error "Year must be between 1 and 9999"
    else .ok { st with year := some (num : Int) }
  else if c = 'M' then
    if num < 1 ∨ 12 < num then .error "Month must be between 1 and 12"
    else .ok { st with month := some num }
  else if c = 'd' then
    if num < 1 ∨ 31 < num then .error "Day must be between 1 and 31"
    else .ok { st with day := some num }
  else if c = 'w' then
    if num < 1 ∨ 7 < num then .error "Weekday must be 1-7 (1=Monday, 7=Sunday)"
    else .ok { st with weekday := some num }
  else if c = 'h' then
    if 23 < num then .error "Hour must be between 0 and 23"
    else .ok { st with hour := some num }
  else if c = 'm' then
    if 59 < num then .error "Minute must be between 0 and 59"
    else .ok { st with minute := some num }
  else if c = 's' then
    if 59 < num then .error "Second must be between 0 and 59"
    else .ok { st with second := some num }
  else .ok st

/-- The scanning loop of `parse_absolute_time` (main.rs lines 127-184),
reformulated char by char: digits accumulate into `num` (a `u64`, hence the
wrap-around modulus of release-mode arithmetic), a non-digit is a unit letter
applied to the accumulated number (which then resets to 0), and a trailing
digit run without a unit letter is discarded, exactly as the Rust loop
breaks out of the scan. -/
def scanAbs : List Char → Nat → AbsFields → Except String AbsFields
  | [], _, st => .ok st
  | c :: cs, num, st =>
    if c.isDigit then scanAbs cs ((num * 10 + (c.toNat - 48)) % 2 ^ 64) st
    else
      match applyUnit c num st with
      | .ok st' => scanAbs cs 0 st'
      | .error e => .error e

/-- The `target_date` computed by `parse_absolute_time`'s weekday
resolution: "now" plus `days_ahead`, where `days_ahead` is the weekday
difference `num_days_from_monday(target) - num_days_from_monday(now)`,
bumped by 7 when `≤ 0`. -/
def weekdayTarget (nowDate : Ymd) (w : Nat) : Ymd :=
  succIter nowDate
    (if (w : Int) - 1 - weekdayFromMonday nowDate ≤ 0
     then (w : Int) - 1 - weekdayFromMonday nowDate + 7
     else (w : Int) - 1 - weekdayFromMonday nowDate).toNat

/-- The weekday-resolution step of `parse_absolute_time` (lines 186-212):
when a weekday is given and no explicit day, the date of the next occurrence
of that weekday strictly after "now" overwrites the day, month and year
fields. -/
def weekdayAdjust (nowDate : Ymd) (f : AbsFields) : AbsFields :=
  match f.weekday, f.day with
  | some w, none =>
    { f with day := some (weekdayTarget nowDate w).day,
             month := some (weekdayTarget nowDate w).month,
             year := some (weekdayTarget nowDate w).year }
  | _, _ => f

/-- Left-pad a numeral string with zeros. -/
def padZero (n : Nat) (s : String) : String :=
  ⟨List.replicate (n - s.data.length) '0' ++ s.data⟩

/-- The "Invalid date/time" error message of `parse_absolute_time`. -/
def invalidDateMsg (y : Int) (mo d h mi s : Nat) : String :=
  "Invalid date/time: " ++ padZero 4 (toString y) ++ "-" ++
    padZero 2 (toString mo) ++ "-" ++ padZero 2 (toString d) ++ " " ++
    padZero 2 (toString h) ++ ":" ++ padZero 2 (toString mi) ++ ":" ++
    padZero 2 (toString s)

/-- `parse_absolute_time` from main.rs, over the local "now" date
`nowDate` (the code computes it as `Utc::now() + offset`; its time-of-day
components are never used, since hour/minute/second default to 0).  Scans the
fields, resolves a weekday without explicit day, defaults year/month/day from
`nowDate` and hour/minute/second to 0, validates the composed local date-time
(`from_ymd_opt` / `and_hms_opt`), and converts it to a UTC instant by
subtracting the configured whole-hour offset. -/
def parse_absolute_time (input : String) (nowDate : Ymd) (offsetHours : Int) :
    Except String Int :=
  match scanAbs input.data 0 emptyFields with
  | .error e => .error e
  | .ok f0 =>
    let f := weekdayAdjust nowDate f0
    let fy : Int := f.year.getD nowDate.year
    let fmo : Nat := f.month.getD nowDate.month
    let fd : Nat := f.day.getD nowDate.day
    let fh : Nat := f.hour.getD 0
    let fmi : Nat := f.minute.getD 0
    let fs : Nat := f.second.getD 0
    if validYmd ⟨fy, fmo, fd⟩ && decide (fh ≤ 23) && decide (fmi ≤ 59)
        && decide (fs ≤ 59) then
      .ok (daysFromCivil ⟨fy, fmo, fd⟩ * 86400 + (fh : Int) * 3600 +
           (fmi : Int) * 60 + (fs : Int) - offsetHours * 3600)
    else
      .error (invalidDateMsg fy fmo fd fh fmi fs)

/-! ## Lemmas about the stable sort -/

theorem stableInsert_perm (le : α → α → Bool) (a : α) (l : List α) :
    List.Perm (stableInsert le a l) (a :: l) := by
  induction l with
  | nil => exact List.Perm.refl _
  | cons b l ih =>
    by_cases h : le a b = true
    · simp only [stableInsert, if_pos h]
      exact List.Perm.refl _
    · simp only [stableInsert, if_neg h]
      exact (ih.cons b).trans (List.Perm.swap a b l)

theorem stableSort_perm (le : α → α → Bool) (l : List α) :
    List.Perm (stableSort le l) l := by
  induction l with
  | nil => exact List.Perm.refl _
  | cons a l ih =>
    exact (stableInsert_perm le a (stableSort le l)).trans (ih.cons a)

theorem pairwise_stableInsert (le : α → α → Bool)
    (htot : ∀ x y, le x y = true ∨ le y x = true)
    (htrans : ∀ x y z, le x y = true → le y z = true → le x z = true)
    (a : α) (l : List α) (hl : List.Pairwise (fun x y => le x y = true) l) :
    List.Pairwise (fun x y => le x y = true) (stableInsert le a l) := by
  induction l with
  | nil => exact List.pairwise_singleton _ a
  | cons b l ih =>
    rcases List.pairwise_cons.mp hl with ⟨hb, hl'⟩
    by_cases h : le a b = true
    · rw [stableInsert, if_pos h]
      refine List.pairwise_cons.mpr ⟨?_, hl⟩
      intro x hx
      rcases List.mem_cons.mp hx with rfl | hx
      · exact h
      · exact htrans a b x h (hb x hx)
    · have hne : le a b ≠ true := h
      rw [stableInsert, if_neg hne]
      refine List.pairwise_cons.mpr ⟨?_, ih hl'⟩
      intro x hx
      rcases List.mem_cons.mp ((stableInsert_perm le a l).mem_iff.mp hx) with hxa | hx
      · rw [hxa]
        rcases htot a b with h' | h'
        · exact absurd h' h
        · exact h'
      · exact hb x hx

theorem pairwise_stableSort (le : α → α → Bool)
    (htot : ∀ x y, le x y = true ∨ le y x = true)
    (htrans : ∀ x y z, le x y = true → le y z = true → le x z = true)
    (l : List α) :
    List.Pairwise (fun x y => le x y = true) (stableSort le l) := by
  induction l with
  | nil => exact List.Pairwise.nil
  | cons a l ih => exact pairwise_stableInsert le htot htrans a _ ih

theorem taskLe_total (a b : Task) : taskLe a b = true ∨ taskLe b a = true := by
  rcases a with ⟨_, _ | x, _⟩ <;> rcases b with ⟨_, _ | y, _⟩ <;>
    simp [taskLe] <;> omega

theorem taskLe_trans (a b c : Task) (h1 : taskLe a b = true)
    (h2 : taskLe b c = true) : taskLe a c = true := by
  rcases a with ⟨_, _ | x, _⟩ <;> rcases b with ⟨_, _ | y, _⟩ <;>
    rcases c with ⟨_, _ | z, _⟩ <;> simp_all [taskLe] <;> omega

/-- C7: for every task list, after `sort_tasks` every task with a time
precedes every task without a time, and the tasks with times appear in
non-decreasing time order (stated as: for every pair in order, either the
later one has no time, or both are timed and their times are
non-decreasing). -/
theorem c7_sort_invariant (tasks : List Task) :
    List.Pairwise
      (fun a b => b.time = none ∨ ∃ x y, a.time = some x ∧ b.time = some y ∧ x ≤ y)
      (sort_tasks tasks) := by
  refine (pairwise_stableSort taskLe taskLe_total taskLe_trans tasks).imp ?_
  intro a b hab
  unfold taskLe at hab
  rcases hat : a.time with _ | x <;> rcases hbt : b.time with _ | y <;>
    rw [hat, hbt] at hab
  · exact Or.inl rfl
  · simp at hab
  · exact Or.inl rfl
  · exact Or.inr ⟨x, y, rfl, rfl, by simpa using hab⟩

/-! ## Concrete similarity functions and thresholds for witnesses

Rational literals are written as explicit reduced fractions so that kernel
evaluation of comparisons never has to normalize. -/

/-- The default `exact_match_threshold` 0.85 as a reduced fraction. -/
def q85 : ℚ := ⟨17, 20, by decide, by decide⟩

/-- 0.95, the (rounded) `jaro_winkler` similarity of "buy milk" and
"buy milc". -/
def q95 : ℚ := ⟨19, 20, by decide, by decide⟩

/-- Discrete similarity: 1 on equal strings, 0 otherwise.  A normalized
case-insensitive similarity function; it agrees with `jaro_winkler` on every
pair it is applied to below (equal strings score 1, and strings with no
matching characters, such as "xyz" vs "abc", score 0). -/
def scoreZ : String → String → ℚ :=
  fun a b => if a == b then 1 else 0

/-- A normalized similarity that scores the (lowercased) pair
"buy milk" / "buy milc" at 0.95, the value `jaro_winkler` gives it
(7 matches out of 8 characters, no transpositions, 4-character common
prefix), and is discrete elsewhere. -/
def scoreMilk : String → String → ℚ :=
  fun a b =>
    if a == b then 1
    else if (a == "buy milk" && b == "buy milc")
        || (a == "buy milc" && b == "buy milk") then q95
    else 0

/-- C9: the add handler is not total — with a session containing "Milk",
adding "milk" (case-insensitively equal, not byte-for-byte equal) makes the
case-sensitive exact check fail while the strict-mode probe resolves an
index with `None` match info, and the handler's `match_info.unwrap()`
panics (modelled by `none`). -/
theorem c9_add_panics :
    "Milk" ≠ "milk" ∧ lowerStr "Milk" = lowerStr "milk" ∧
    addToSession scoreZ false false q85 [⟨"Milk", none, false⟩] "milk" none = none := by
  exact ⟨by decide, by decide, by decide⟩

/-- C2 (failing input): a session holds "buy milk" and "buy milc" is added
with overriding forbidden.  The new description is not an exact match but is
a fuzzy collision (similarity 0.95 > threshold 0.85, detected by the
strict-mode probe as a suggestion).  The claim says the add must abort
without appending; the code appends a new task anyway, because the fuzzy
branch tests the probe's resolved index (set only for case-insensitive
exact matches) instead of its match info. -/
theorem c2_fuzzy_collision_appends :
    lowerStr "buy milk" ≠ lowerStr "buy milc" ∧
    q85 < descScore scoreMilk "buy milc" ⟨"buy milk", none, false⟩ ∧
    find_by_name scoreMilk [⟨"buy milk", none, false⟩] "buy milc" q85 true =
      (none, some ("buy milk", q95)) ∧
    addToSession scoreMilk false false q85 [⟨"buy milk", none, false⟩] "buy milc" none =
      some [⟨"buy milk", none, false⟩, ⟨"buy milc", none, false⟩] := by
  exact ⟨by decide, by decide, by decide, by decide⟩

/-- C5 (failing input): a year field of 0 is accepted, not rejected — the
token "0y1M1d" scans to year 0, month 1, day 1 and resolves to the year-0
date, although the code's own error message documents the range 1-9999
(the check only rejects years above 9999). -/
theorem c5_year_zero_accepted :
    scanAbs "0y1M1d".data 0 emptyFields =
      .ok { emptyFields with year := some 0, month := some 1, day := some 1 } ∧
    parse_absolute_time "0y1M1d" ⟨2026, 10, 12⟩ 3 =
      .ok (daysFromCivil ⟨0, 1, 1⟩ * 86400 - 3 * 3600) := by
  exact ⟨rfl, rfl⟩

/-- C1 (counterexample): with threshold 0 (an admissible similarity
threshold) and a single task scoring exactly the threshold on a query with
no case-insensitive exact equality, non-strict mode resolves nothing — the
best-score scan requires `score > best_score` with `best_score` starting at
0, so a candidate at the threshold is not "resolved directly as the match"
as the claim states. -/
theorem c1_counterexample :
    lowerStr "xyz" ≠ lowerStr "abc" ∧
    descScore scoreZ "abc" ⟨"xyz", none, false⟩ = 0 ∧ (0:ℚ) ≤ 0 ∧
    find_by_name scoreZ [⟨"xyz", none, false⟩] "abc" 0 false = (none, none) := by
  exact ⟨by decide, by decide, by decide, by decide⟩

/-- C6 (counterexample): for the token "1w" (weekday given, no explicit
day), the day field is not supplied, yet the parsed result is not the
current local date's day at local midnight as the claim's defaulting rule
predicts: on local date 2026-10-12 the result is 2026-10-19 (the weekday
resolution overwrites year, month and day). -/
theorem c6_counterexample :
    scanAbs "1w".data 0 emptyFields = .ok { emptyFields with weekday := some 1 } ∧
    parse_absolute_time "1w" ⟨2026, 10, 12⟩ 3 = .ok 1792357200 ∧
    (1792357200 : Int) ≠ daysFromCivil ⟨2026, 10, 12⟩ * 86400 - 3 * 3600 := by
  exact ⟨rfl, rfl, by decide⟩

theorem find_by_index_eq_some (tasks : List Task) (v k : Nat) :
    find_by_index tasks v = some k ↔ v = k ∧ k < tasks.length := by
  unfold find_by_index
  by_cases hv : v < tasks.length
  · rw [if_pos hv]
    constructor
    · intro h; cases h; exact ⟨rfl, hv⟩
    · intro h; rcases h with ⟨h1, _⟩; cases h1; rfl
  · rw [if_neg hv]
    constructor
    · intro h; cases h
    · intro h; rcases h with ⟨h1, h2⟩; cases h1; exact absurd h2 hv

theorem c3_index_dispatch (score : String → String → ℚ) (tasks : List Task)
    (query : String) (threshold : ℚ) (strict : Bool) :
    (isIndexQuery query = true →
      (find_task score tasks query threshold strict).2.2 = true ∧
      ∀ k, (find_task score tasks query threshold strict).1 = some k ↔
        (parseUsize? query = some k ∧ k < tasks.length)) ∧
    (query.data.head? = some '-' ∧ (query.data.drop 1).all Char.isDigit = true →
      (find_task score tasks query threshold strict).1 = none ∧
      (find_task score tasks query threshold strict).2.2 = true) ∧
    ((∃ i, ∃ h : i < query.data.length, (query.data.get ⟨i, h⟩).isDigit = false ∧
        ¬(i = 0 ∧ query.data.get ⟨i, h⟩ = '-')) →
      (find_task score tasks query threshold strict).2.2 = false) := by
  refine ⟨?_, ?_, ?_⟩
  · intro hidx
    unfold find_task
    rw [if_pos hidx]
    cases hp : parseUsize? query with
    | none =>
      refine ⟨rfl, ?_⟩
      intro k
      show (none : Option Nat) = some k ↔ (none : Option Nat) = some k ∧ k < tasks.length
      simp
    | some v =>
      refine ⟨rfl, ?_⟩
      intro k
      show find_by_index tasks v = some k ↔ some v = some k ∧ k < tasks.length
      rw [find_by_index_eq_some]
      simp
  · intro h
    rcases h with ⟨hh, hrest⟩
    have hidx : isIndexQuery query = true := by
      unfold isIndexQuery
      rw [Bool.or_eq_true]
      right
      rw [Bool.and_eq_true]
      exact ⟨by simp [hh], hrest⟩
    have hp : parseUsize? query = none := by
      unfold parseUsize?
      cases hq : query.data with
      | nil => rw [hq] at hh; cases hh
      | cons c cs =>
        have hc : c = '-' := by
          rw [hq, List.head?_cons] at hh
          exact Option.some.inj hh
        have hd : Char.isDigit '-' = false := by decide
        have : (c :: cs).all Char.isDigit = false := by
          rw [List.all_cons, hc, hd, Bool.false_and]
        simp [this]
    unfold find_task
    rw [if_pos hidx, hp]
    exact ⟨rfl, rfl⟩
  · intro h
    rcases h with ⟨i, hi, hnd, hn0⟩
    have hni : ¬ (isIndexQuery query = true) := by
      unfold isIndexQuery
      rw [Bool.or_eq_true]
      rintro (ha | hb)
      · rw [List.all_eq_true] at ha
        have := ha _ (query.data.get_mem i hi)
        rw [hnd] at this
        cases this
      · rw [Bool.and_eq_true] at hb
        rcases hb with ⟨hbeq, hball⟩
        have hh : query.data.head? = some '-' := by
          exact eq_of_beq hbeq
        cases hq : query.data with
        | nil => rw [hq] at hi; cases hi
        | cons c cs =>
          have hc : c = '-' := by
            rw [hq, List.head?_cons] at hh
            exact Option.some.inj hh
          cases hieq : i with
          | zero =>
            apply hn0
            refine ⟨hieq, ?_⟩
            have : query.data.get ⟨i, hi⟩ = c := by
              subst hieq
              rw [List.get_of_eq hq]
              rfl
            rw [this, hc]
          | succ j =>
            have hj : j < cs.length := by
              rw [hq] at hi
              simp at hi
              omega
            have hmem : cs.get ⟨j, hj⟩ ∈ query.data.drop 1 := by
              rw [hq]
              show cs.get ⟨j, hj⟩ ∈ cs
              exact cs.get_mem j hj
            rw [List.all_eq_true] at hball
            have hdig := hball _ hmem
            have hgeq : query.data.get ⟨i, hi⟩ = cs.get ⟨j, hj⟩ := by
              subst hieq
              rw [List.get_of_eq hq]
              rfl
            rw [hgeq, hdig] at hnd
            cases hnd
    unfold find_task
    rw [if_neg hni]


theorem c3_index_dispatch_witness :
    (find_task scoreZ [⟨"x",none,false⟩,⟨"y",none,false⟩,⟨"z",none,false⟩] "1" q85 false).1 = some 1 ∧
    (find_task scoreZ [⟨"x",none,false⟩,⟨"y",none,false⟩,⟨"z",none,false⟩] "1" q85 false).2.2 = true ∧
    (find_task scoreZ [⟨"x",none,false⟩,⟨"y",none,false⟩,⟨"z",none,false⟩] "-2" q85 false).1 = none ∧
    (find_task scoreZ [⟨"x",none,false⟩,⟨"y",none,false⟩,⟨"z",none,false⟩] "a1" q85 false).2.2 = false := by
  refine ⟨?_, ?_, ?_, ?_⟩
  · exact (((c3_index_dispatch scoreZ _ "1" q85 false).1 (by decide)).2 1).mpr ⟨by decide, by decide⟩
  · exact ((c3_index_dispatch scoreZ _ "1" q85 false).1 (by decide)).1
  · exact ((c3_index_dispatch scoreZ _ "-2" q85 false).2.1 ⟨by decide, by decide⟩).1
  · exact (c3_index_dispatch scoreZ _ "a1" q85 false).2.2 ⟨0, by decide, by decide, by decide⟩

theorem find_by_name_true (score : String → String → ℚ) (tasks : List Task)
    (query : String) (threshold : ℚ) :
    find_by_name score tasks query threshold true =
      findStrict score tasks query threshold := rfl

theorem find_by_name_false (score : String → String → ℚ) (tasks : List Task)
    (query : String) (threshold : ℚ) :
    find_by_name score tasks query threshold false =
      findLoose score tasks query threshold := rfl

theorem mem_enumFromN (l : List Task) (n i : Nat) (t : Task)
    (h : (i, t) ∈ enumFromN n l) :
    ∃ j, ∃ hj : j < l.length, i = n + j ∧ l.get ⟨j, hj⟩ = t := by
  induction l generalizing n with
  | nil => cases h
  | cons a l ih =>
    rw [enumFromN] at h
    rcases List.mem_cons.mp h with heq | hmem
    · simp only [Prod.mk.injEq] at heq
      exact ⟨0, by simp, by omega, by rw [← heq.2]; rfl⟩
    · rcases ih (n + 1) hmem with ⟨j, hj, hij, hget⟩
      exact ⟨j + 1, Nat.succ_lt_succ hj, by omega, by rw [List.get_cons_succ]; exact hget⟩

theorem head?_mem {l : List α} {c : α} (h : l.head? = some c) : c ∈ l := by
  cases l with
  | nil => cases h
  | cons a l =>
    rw [List.head?_cons] at h
    rw [Option.some.inj h]
    exact List.mem_cons_self c l

theorem bestLoop_no_update (score : String → String → ℚ) (query : String)
    (threshold : ℚ) (ts : List Task) (k : Nat) (best : Option (Nat × String)) (bs : ℚ)
    (h : ∀ t ∈ ts, ¬(bs < descScore score query t ∧ threshold ≤ descScore score query t)) :
    bestLoop score query threshold ts k best bs = (best, bs) := by
  induction ts generalizing k with
  | nil => rfl
  | cons t ts ih =>
    rw [bestLoop]
    rw [if_neg (h t (List.mem_cons_self t ts))]
    exact ih (k + 1) (fun u hu => h u (List.mem_cons_of_mem t hu))

theorem bestLoop_resolves (score : String → String → ℚ) (query : String)
    (threshold : ℚ) (ts : List Task) (p : Nat) (hp : p < ts.length)
    (k : Nat) (best : Option (Nat × String)) (bs : ℚ)
    (hbs : bs < descScore score query (ts.get ⟨p, hp⟩))
    (hth : threshold ≤ descScore score query (ts.get ⟨p, hp⟩))
    (hmax : ∀ q, ∀ hq : q < ts.length, q ≠ p →
      descScore score query (ts.get ⟨q, hq⟩) < descScore score query (ts.get ⟨p, hp⟩)) :
    bestLoop score query threshold ts k best bs =
      (some (k + p, (ts.get ⟨p, hp⟩).description),
       descScore score query (ts.get ⟨p, hp⟩)) := by
  induction ts generalizing p k best bs with
  | nil => cases hp
  | cons t ts ih =>
    cases p with
    | zero =>
      have hg0 : (t :: ts).get ⟨0, hp⟩ = t := rfl
      rw [hg0] at hbs hth ⊢
      rw [bestLoop]
      rw [if_pos ⟨hbs, hth⟩]
      have hrest : ∀ u ∈ ts, ¬(descScore score query t < descScore score query u ∧
          threshold ≤ descScore score query u) := by
        intro u hu hcon
        rcases List.mem_iff_get.mp hu with ⟨⟨j, hj⟩, hjeq⟩
        have := hmax (j + 1) (Nat.succ_lt_succ hj) (by omega)
        rw [List.get_cons_succ, hg0] at this
        rw [hjeq] at this
        exact absurd hcon.1 (not_lt.mpr (le_of_lt this))
      rw [bestLoop_no_update score query threshold ts (k + 1) _ _ hrest]
      simp
    | succ q =>
      have hq : q < ts.length := Nat.lt_of_succ_lt_succ hp
      have hget : (t :: ts).get ⟨q + 1, hp⟩ = ts.get ⟨q, hq⟩ := rfl
      rw [hget] at hbs hth ⊢
      have hmax' : ∀ r, ∀ hr : r < ts.length, r ≠ q →
          descScore score query (ts.get ⟨r, hr⟩) < descScore score query (ts.get ⟨q, hq⟩) := by
        intro r hr hne
        have := hmax (r + 1) (Nat.succ_lt_succ hr) (by omega)
        rw [List.get_cons_succ, List.get_cons_succ] at this
        exact this
      have ht0 : descScore score query t < descScore score query (ts.get ⟨q, hq⟩) := by
        have := hmax 0 (Nat.succ_pos ts.length) (by omega)
        rw [List.get_cons_succ] at this
        exact this
      rw [bestLoop]
      by_cases hc : bs < descScore score query t ∧ threshold ≤ descScore score query t
      · rw [if_pos hc]
        rw [ih q hq (k + 1) _ _ ht0 hth hmax']
        have hk : k + 1 + q = k + (q + 1) := by omega
        rw [hk]
      · rw [if_neg hc]
        rw [ih q hq (k + 1) _ _ hbs hth hmax']
        have hk : k + 1 + q = k + (q + 1) := by omega
        rw [hk]


/-- C1 (amended): for every task list, threshold and query with no
case-insensitive exact equality to any description: in strict mode the
matcher resolves no index and any returned fuzzy suggestion is a candidate
whose similarity score is strictly above the threshold; in non-strict mode a
candidate whose score is at or above the threshold, strictly positive, and
strictly the single best is resolved directly as the match, returned with
its score. -/
theorem c1_amended_matcher (score : String → String → ℚ) (tasks : List Task)
    (query : String) (threshold : ℚ)
    (hne : ∀ t ∈ tasks, lowerStr t.description ≠ lowerStr query) :
    ((find_by_name score tasks query threshold true).1 = none ∧
      ∀ d s, (find_by_name score tasks query threshold true).2 = some (d, s) →
        threshold < s ∧ ∃ i, ∃ h : i < tasks.length,
          (tasks.get ⟨i, h⟩).description = d ∧
          descScore score query (tasks.get ⟨i, h⟩) = s) ∧
    (∀ i, ∀ h : i < tasks.length,
      threshold ≤ descScore score query (tasks.get ⟨i, h⟩) →
      0 < descScore score query (tasks.get ⟨i, h⟩) →
      (∀ j, ∀ hj : j < tasks.length, j ≠ i →
        descScore score query (tasks.get ⟨j, hj⟩) <
          descScore score query (tasks.get ⟨i, h⟩)) →
      find_by_name score tasks query threshold false =
        (some i, some ((tasks.get ⟨i, h⟩).description,
                       descScore score query (tasks.get ⟨i, h⟩)))) := by
  have hfind : tasks.findIdx? (fun t => lowerStr t.description == lowerStr query) = none := by
    rw [List.findIdx?_eq_none_iff]
    intro t ht
    exact beq_eq_false_iff_ne.mpr (hne t ht)
  constructor
  · rw [find_by_name_true]
    unfold findStrict
    rw [hfind]
    cases hh : (sortedCandidates score tasks query threshold).head? with
    | none =>
      refine ⟨rfl, ?_⟩
      intro d s hds
      cases hds
    | some c =>
      refine ⟨rfl, ?_⟩
      intro d s hds
      have hc := Option.some.inj hds
      have hd : c.2.1 = d := congrArg Prod.fst hc
      have hs : c.2.2 = s := congrArg Prod.snd hc
      have hmemS : c ∈ sortedCandidates score tasks query threshold := head?_mem hh
      have hmemC : c ∈ candidatesOf score tasks query threshold :=
        (stableSort_perm _ _).mem_iff.mp hmemS
      unfold candidatesOf at hmemC
      rcases List.mem_filter.mp hmemC with ⟨hmemM, hfilt⟩
      rcases List.mem_map.mp hmemM with ⟨pq, hpq, hmk⟩
      have hth : threshold < s := by
        rw [← hs]
        exact of_decide_eq_true hfilt
      rcases mem_enumFromN tasks 0 pq.1 pq.2 hpq with ⟨j, hj, _, hget⟩
      refine ⟨hth, j, hj, ?_, ?_⟩
      · rw [hget, ← hd, ← hmk]
      · rw [hget, ← hs, ← hmk]
  · intro i h hth h0 hmax
    rw [find_by_name_false]
    unfold findLoose
    rw [bestLoop_resolves score query threshold tasks i h 0 none 0 h0 hth hmax]
    simp

theorem c1_amended_matcher_witness :
    (∀ t ∈ [Task.mk "buy milk" none false],
      lowerStr t.description ≠ lowerStr "buy milc") ∧
    (find_by_name scoreMilk [⟨"buy milk", none, false⟩] "buy milc" q85 true).1 = none ∧
    find_by_name scoreMilk [⟨"buy milk", none, false⟩] "buy milc" q85 false =
      (some 0, some ("buy milk", q95)) := by
  refine ⟨by decide, ?_, ?_⟩
  · exact ((c1_amended_matcher scoreMilk [⟨"buy milk", none, false⟩] "buy milc" q85
      (by decide)).1).1
  · have h1 := (c1_amended_matcher scoreMilk [⟨"buy milk", none, false⟩] "buy milc" q85
      (by decide)).2 0 (by decide) (by decide) (by decide)
      (by
        intro j hj hne
        have hj1 : j < 1 := hj
        exact absurd (by omega) hne)
    exact h1.trans (by decide)

/-! ## Character and lowercasing lemmas (for the description-uniqueness
invariant) -/

theorem char_toNat_ofNat_small {n : Nat} (h : n < 55296) :
    (Char.ofNat n).toNat = n := by
  unfold Char.ofNat
  rw [dif_pos (Or.inl h)]
  rfl

theorem toLower_of_not_upper {c : Char} (h : ¬(65 ≤ c.toNat ∧ c.toNat ≤ 90)) :
    c.toLower = c := by
  unfold Char.toLower
  rw [if_neg h]

theorem toNat_toLower_of_upper {c : Char} (h : 65 ≤ c.toNat ∧ c.toNat ≤ 90) :
    c.toLower.toNat = c.toNat + 32 := by
  unfold Char.toLower
  rw [if_pos h]
  exact char_toNat_ofNat_small (by omega)

theorem toNat_of_isDigit {c : Char} (h : c.isDigit = true) :
    48 ≤ c.toNat ∧ c.toNat ≤ 57 := by
  unfold Char.isDigit at h
  rw [Bool.and_eq_true] at h
  obtain ⟨h1, h2⟩ := h
  have h1' : (48:UInt32) ≤ c.val := of_decide_eq_true h1
  have h2' : c.val ≤ (57:UInt32) := of_decide_eq_true h2
  rw [UInt32.le_def, BitVec.le_def] at h1' h2'
  exact ⟨h1', h2'⟩

theorem map_toLower_eq_self {l m : List Char}
    (hm : ∀ c ∈ m, ¬(97 ≤ c.toNat ∧ c.toNat ≤ 122))
    (h : l.map Char.toLower = m) : l = m := by
  induction l generalizing m with
  | nil => rw [List.map_nil] at h; exact h
  | cons a l ih =>
    cases m with
    | nil => cases h
    | cons b m =>
      rw [List.map_cons] at h
      have h1 : a.toLower = b := (List.cons.injEq _ _ _ _ ▸ h).1
      have h2 : l.map Char.toLower = m := (List.cons.injEq _ _ _ _ ▸ h).2
      have hb := hm b (List.mem_cons_self b m)
      by_cases hu : 65 ≤ a.toNat ∧ a.toNat ≤ 90
      · exfalso
        have := toNat_toLower_of_upper hu
        rw [h1] at this
        exact hb ⟨by omega, by omega⟩
      · rw [toLower_of_not_upper hu] at h1
        rw [h1, ih (fun c hc => hm c (List.mem_cons_of_mem b hc)) h2]

theorem eq_of_lowerStr_eq {s t : String}
    (ht : ∀ c ∈ t.data, ¬(97 ≤ c.toNat ∧ c.toNat ≤ 122))
    (h : lowerStr s = t) : s = t := by
  have hl : s.data.map Char.toLower = t.data := congrArg String.data h
  cases s with
  | mk ls =>
    cases t with
    | mk lt =>
      have : ls = lt := map_toLower_eq_self ht hl
      rw [this]

theorem lowerStr_of_no_upper {s : String}
    (h : ∀ c ∈ s.data, ¬(65 ≤ c.toNat ∧ c.toNat ≤ 90)) : lowerStr s = s := by
  cases s with
  | mk ls =>
    show String.mk (ls.map Char.toLower) = String.mk ls
    congr 1
    induction ls with
    | nil => rfl
    | cons a l ih =>
      rw [List.map_cons]
      rw [toLower_of_not_upper (h a (List.mem_cons_self a l))]
      rw [ih (fun c hc => h c (List.mem_cons_of_mem a hc))]

/-! ## Description preservation and pairwise transfer -/

theorem modifyAt_map_desc (f : Task → Task)
    (hf : ∀ t, (f t).description = t.description) (i : Nat) (l : List Task) :
    (modifyAt f i l).map Task.description = l.map Task.description := by
  induction l generalizing i with
  | nil => cases i <;> rfl
  | cons a l ih =>
    cases i with
    | zero => rw [modifyAt, List.map_cons, List.map_cons, hf]
    | succ j => rw [modifyAt, List.map_cons, List.map_cons, ih]

/-- The description-uniqueness invariant: pairwise distinct lowercased
descriptions. -/
def DistinctLower (l : List Task) : Prop :=
  List.Pairwise (fun a b => lowerStr a.description ≠ lowerStr b.description) l

theorem distinctLower_symm {a b : Task}
    (h : lowerStr a.description ≠ lowerStr b.description) :
    lowerStr b.description ≠ lowerStr a.description :=
  fun e => h e.symm

theorem distinctLower_iff_map (l : List Task) :
    DistinctLower l ↔
      List.Pairwise (fun a b => lowerStr a ≠ lowerStr b) (l.map Task.description) := by
  unfold DistinctLower
  rw [List.pairwise_map]

theorem distinctLower_sort (l : List Task) (h : DistinctLower l) :
    DistinctLower (sort_tasks l) := by
  unfold DistinctLower at h ⊢
  exact ((stableSort_perm taskLe l).pairwise_iff distinctLower_symm).mpr h

theorem distinctLower_modifyAt (f : Task → Task)
    (hf : ∀ t, (f t).description = t.description) (i : Nat) (l : List Task)
    (h : DistinctLower l) : DistinctLower (modifyAt f i l) := by
  rw [distinctLower_iff_map] at h ⊢
  rw [modifyAt_map_desc f hf i l]
  exact h

/-- C8: the add operation preserves at-most-one-task-per
exact-lowercased-description: starting from a session with pairwise distinct
lowercased descriptions, any non-panicking add yields a session with pairwise
distinct lowercased descriptions (overrides keep descriptions unchanged;
a new task is appended only when no existing description matches the new
one case-insensitively). -/
theorem c8_unique_descriptions (score : String → String → ℚ)
    (canO strictC : Bool) (th : ℚ) (sess : List Task) (desc : String)
    (time : Option Int) (sess' : List Task)
    (hpre : DistinctLower sess)
    (hadd : addToSession score canO strictC th sess desc time = some sess') :
    DistinctLower sess' := by
  unfold addToSession at hadd
  by_cases hdg : desc.data.all Char.isDigit = true
  · rw [if_pos hdg] at hadd
    obtain rfl := Option.some.inj hadd
    exact hpre
  · rw [if_neg hdg] at hadd
    cases hex : sess.findIdx? (fun t => t.description == desc) with
    | some idx =>
      rw [hex] at hadd
      dsimp only at hadd
      by_cases hco : canO = true
      · rw [if_pos hco] at hadd
        obtain rfl := Option.some.inj hadd
        exact distinctLower_sort _ (distinctLower_modifyAt
          (fun t => { t with time := time, done := false }) (fun _ => rfl) idx sess hpre)
      · rw [if_neg hco] at hadd
        obtain rfl := Option.some.inj hadd
        exact hpre
    | none =>
      rw [hex] at hadd
      dsimp only at hadd
      cases hfr : (find_task score sess desc th true).1 with
      | some idx =>
        cases hmi : (find_task score sess desc th true).2.1 with
        | some m =>
          rw [hfr, hmi] at hadd
          dsimp only at hadd
          by_cases hsc : strictC = true
          · rw [if_pos hsc] at hadd
            obtain rfl := Option.some.inj hadd
            exact hpre
          · rw [if_neg hsc] at hadd
            by_cases hco : canO = true
            · rw [if_pos hco] at hadd
              obtain rfl := Option.some.inj hadd
              exact distinctLower_sort _ (distinctLower_modifyAt
                (fun t => { t with time := time, done := false }) (fun _ => rfl) idx sess hpre)
            · rw [if_neg hco] at hadd
              obtain rfl := Option.some.inj hadd
              exact hpre
        | none =>
          rw [hfr, hmi] at hadd
          dsimp only at hadd
          cases hadd
      | none =>
        rw [hfr] at hadd
        dsimp only at hadd
        obtain rfl := Option.some.inj hadd
        have hexall : ∀ b ∈ sess, b.description ≠ desc := by
          intro b hb
          exact ne_of_beq_false (List.findIdx?_eq_none_iff.mp hex b hb)
        have key : ∀ a ∈ sess, lowerStr a.description ≠ lowerStr desc := by
          by_cases hiq : isIndexQuery desc = true
          · have hsplit : desc.data.head? = some '-' ∧
                (desc.data.drop 1).all Char.isDigit = true := by
              unfold isIndexQuery at hiq
              rw [Bool.or_eq_true] at hiq
              rcases hiq with h | h
              · exact absurd h hdg
              · rw [Bool.and_eq_true] at h
                exact ⟨eq_of_beq h.1, h.2⟩
            have hchars : ∀ c ∈ desc.data,
                (¬(65 ≤ c.toNat ∧ c.toNat ≤ 90)) ∧
                ¬(97 ≤ c.toNat ∧ c.toNat ≤ 122) := by
              rcases hsplit with ⟨hh, hall⟩
              intro c hc
              cases hq : desc.data with
              | nil => rw [hq] at hc; cases hc
              | cons c0 cs =>
                rw [hq, List.head?_cons] at hh
                have hc0 : c0 = '-' := Option.some.inj hh
                rw [hq] at hc
                rcases List.mem_cons.mp hc with hceq | hcs
                · rw [hceq, hc0]
                  exact ⟨by decide, by decide⟩
                · have hdig : c.isDigit = true := by
                    rw [hq] at hall
                    exact List.all_eq_true.mp hall c hcs
                  have hb := toNat_of_isDigit hdig
                  exact ⟨by omega, by omega⟩
            intro a ha heq
            have hfix : lowerStr desc = desc :=
              lowerStr_of_no_upper (fun c hc => (hchars c hc).1)
            rw [hfix] at heq
            have : a.description = desc :=
              eq_of_lowerStr_eq (fun c hc => (hchars c hc).2) heq
            exact hexall a ha this
          · have hfr' : (find_by_name score sess desc th true).1 = none := by
              unfold find_task at hfr
              rw [if_neg hiq] at hfr
              exact hfr
            rw [find_by_name_true] at hfr'
            unfold findStrict at hfr'
            cases hfi : sess.findIdx?
                (fun t => lowerStr t.description == lowerStr desc) with
            | some j => rw [hfi] at hfr'; cases hfr'
            | none =>
              intro a ha
              exact ne_of_beq_false (List.findIdx?_eq_none_iff.mp hfi a ha)
        apply distinctLower_sort
        unfold DistinctLower
        rw [List.pairwise_append]
        refine ⟨hpre, List.pairwise_singleton _ _, ?_⟩
        intro a ha b hb
        rw [List.mem_singleton] at hb
        rw [hb]
        exact key a ha

/-- Closed instance for C8: adding "bread" to the distinct session
["Milk"] succeeds and keeps lowercased descriptions pairwise distinct. -/
theorem c8_unique_descriptions_witness :
    DistinctLower [Task.mk "Milk" none false] ∧
    addToSession scoreZ true false q85 [⟨"Milk", none, false⟩] "bread" none =
      some [⟨"Milk", none, false⟩, ⟨"bread", none, false⟩] ∧
    DistinctLower [Task.mk "Milk" none false, Task.mk "bread" none false] := by
  refine ⟨List.pairwise_singleton _ _, by decide, ?_⟩
  exact c8_unique_descriptions scoreZ true false q85 [⟨"Milk", none, false⟩]
    "bread" none _ (List.pairwise_singleton _ _) (by decide)

/-- C10: a reschedule invocation whose arguments are a resolving query plus
exactly one further word silently clears the task's time to no-time, exactly
as if no time arguments had been given: the extra word is never inspected
(no unknown-prefix outcome, no parser call), because the time-parsing branch
requires more than two arguments. -/
theorem c10_stray_word_clears_time (score : String → String → ℚ)
    (threshold : ℚ) (strict : Bool)
    (parseRel parseAbs : String → Except String Int)
    (sess : List Task) (q w : String) (idx : Nat)
    (hres : (find_task score sess q threshold strict).1 = some idx) :
    timeCommand score threshold strict parseRel parseAbs sess [q, w] =
      .ok (sort_tasks (modifyAt (fun tk => { tk with time := none }) idx sess),
           .changed idx ((sess.getD idx default).time) none) ∧
    timeCommand score threshold strict parseRel parseAbs sess [q, w] =
      timeCommand score threshold strict parseRel parseAbs sess [q] := by
  constructor
  · unfold timeCommand
    dsimp only
    rw [hres]
  · unfold timeCommand
    dsimp only

/-- Closed instance for C10: with the one-task session ["x" at time 9],
`t 0 in` (a resolving index query plus the stray word "in") clears the time
and equals the result of `t 0`. -/
theorem c10_stray_word_clears_time_witness :
    (find_task scoreZ [Task.mk "x" (some 9) false] "0" q85 false).1 = some 0 ∧
    timeCommand scoreZ q85 false (fun _ => .error "unused") (fun _ => .error "unused")
        [⟨"x", some 9, false⟩] ["0", "in"] =
      .ok ([⟨"x", none, false⟩], .changed 0 (some 9) none) ∧
    timeCommand scoreZ q85 false (fun _ => .error "unused") (fun _ => .error "unused")
        [⟨"x", some 9, false⟩] ["0", "in"] =
      timeCommand scoreZ q85 false (fun _ => .error "unused") (fun _ => .error "unused")
        [⟨"x", some 9, false⟩] ["0"] := by
  refine ⟨by decide, ?_, ?_⟩
  · have h := (c10_stray_word_clears_time scoreZ q85 false
      (fun _ => .error "unused") (fun _ => .error "unused")
      [⟨"x", some 9, false⟩] "0" "in" 0 (by decide)).1
    exact h
  · exact (c10_stray_word_clears_time scoreZ q85 false
      (fun _ => .error "unused") (fun _ => .error "unused")
      [⟨"x", some 9, false⟩] "0" "in" 0 (by decide)).2

/-! ## Calendar arithmetic: the successor day advances the day number by 1 -/

theorem isLeapYear_iff (y : Int) :
    isLeapYear y = true ↔ ((y % 4 = 0 ∧ ¬(y % 100 = 0)) ∨ y % 400 = 0) := by
  unfold isLeapYear
  rw [Bool.or_eq_true, Bool.and_eq_true]
  simp

theorem daysInMonth_ge (y : Int) (m : Nat) : 28 ≤ daysInMonth y m := by
  unfold daysInMonth
  split_ifs <;> omega

theorem validArith_succDay (d : Ymd) (h : validArith d) :
    validArith (succDay d) := by
  obtain ⟨hm1, hm2, hd1, hd2⟩ := h
  have h28a := daysInMonth_ge d.year (d.month + 1)
  have h28b := daysInMonth_ge (d.year + 1) 1
  unfold succDay
  split_ifs with h1 h2 <;> (unfold validArith; dsimp only) <;>
    exact ⟨by omega, by omega, by omega, by omega⟩

/-- Auxiliary: the era/year-of-era decomposition of the day-number formula
collapses to plain divisions of the shifted year. -/
theorem eraSplit (y : Int) :
    (y / 400) * 146097 + (y - y / 400 * 400) * 365 + (y - y / 400 * 400) / 4
      - (y - y / 400 * 400) / 100
    = 365 * y + y / 4 - y / 100 + y / 400 := by
  have h0 : y % 400 = y - y / 400 * 400 := by omega
  rw [← h0]
  have hy : y = 400 * (y / 400) + y % 400 := by omega
  have h4 : y / 4 = 100 * (y / 400) + (y % 400) / 4 := by
    conv_lhs => rw [hy]
    rw [show (400:Int) * (y / 400) + y % 400 = y % 400 + (y / 400) * 100 * 4 by ring]
    rw [Int.add_mul_ediv_right _ _ (by norm_num : (4:Int) ≠ 0)]
    ring
  have h100 : y / 100 = 4 * (y / 400) + (y % 400) / 100 := by
    conv_lhs => rw [hy]
    rw [show (400:Int) * (y / 400) + y % 400 = y % 400 + (y / 400) * 4 * 100 by ring]
    rw [Int.add_mul_ediv_right _ _ (by norm_num : (100:Int) ≠ 0)]
    ring
  rw [h4, h100]
  omega

/-- Closed form of `daysFromCivil` with un-nested divisions. -/
theorem daysFromCivil_formula (y : Int) (m day : Nat) :
    daysFromCivil ⟨y, m, day⟩ =
      365 * (if m ≤ 2 then y - 1 else y) + (if m ≤ 2 then y - 1 else y) / 4
        - (if m ≤ 2 then y - 1 else y) / 100 + (if m ≤ 2 then y - 1 else y) / 400
        + (153 * (if 2 < m then (m : Int) - 3 else (m : Int) + 9) + 2) / 5
        + (day : Int) - 1 - 719468 := by
  unfold daysFromCivil
  dsimp only
  by_cases hm : m ≤ 2
  · simp only [if_pos hm, if_neg (by omega : ¬ 2 < m)]
    have := eraSplit (y - 1)
    omega
  · simp only [if_neg hm, if_pos (by omega : 2 < m)]
    have := eraSplit y
    omega

set_option maxHeartbeats 1600000 in
theorem daysFromCivil_succDay (d : Ymd) (h : validArith d) :
    daysFromCivil (succDay d) = daysFromCivil d + 1 := by
  obtain ⟨y, m, day⟩ := d
  obtain ⟨hm1, hm2, hd1, hd2⟩ := h
  dsimp only at hm1 hm2 hd1 hd2
  unfold succDay
  dsimp only
  by_cases h1 : day < daysInMonth y m
  · rw [if_pos h1]
    rw [daysFromCivil_formula y m (day + 1), daysFromCivil_formula y m day]
    split_ifs <;> push_cast <;> omega
  · rw [if_neg h1]
    have hday : day = daysInMonth y m := by omega
    clear h1 hd1 hd2
    by_cases h2 : m < 12
    · rw [if_pos h2]
      rw [daysFromCivil_formula y (m + 1) 1, daysFromCivil_formula y m day]
      interval_cases m <;>
        (unfold daysInMonth at hday
         rcases Bool.eq_false_or_eq_true (isLeapYear y) with hl | hl <;>
           (have hiff := isLeapYear_iff y
            rw [hl] at hiff
            simp at hiff
            simp [hl] at hday
            split_ifs <;> push_cast <;> omega))
    · have hm12 : m = 12 := by omega
      subst hm12
      rw [if_neg h2]
      unfold daysInMonth at hday
      norm_num at hday
      rw [daysFromCivil_formula (y + 1) 1 1, daysFromCivil_formula y 12 day]
      split_ifs <;> push_cast <;> omega

theorem validArith_succIter (d : Ymd) (h : validArith d) (n : Nat) :
    validArith (succIter d n) := by
  induction n generalizing d with
  | zero => exact h
  | succ k ih => exact ih (succDay d) (validArith_succDay d h)

theorem daysFromCivil_succIter (d : Ymd) (h : validArith d) (n : Nat) :
    daysFromCivil (succIter d n) = daysFromCivil d + n := by
  induction n generalizing d with
  | zero => simp [succIter]
  | succ k ih =>
    rw [succIter]
    rw [ih (succDay d) (validArith_succDay d h)]
    rw [daysFromCivil_succDay d h]
    push_cast
    ring

/-! ## Scanner invariants and parse inversion -/

theorem applyUnit_weekday (c : Char) (num : Nat) (st st' : AbsFields)
    (happ : applyUnit c num st = .ok st')
    (hst : ∀ w, st.weekday = some w → 1 ≤ w ∧ w ≤ 7) :
    ∀ w, st'.weekday = some w → 1 ≤ w ∧ w ≤ 7 := by
  unfold applyUnit at happ
  split_ifs at happ with h1 h2 h3 h4 h5 h6 h7 h8 h9 h10 h11 h12 h13 h14
  all_goals cases happ
  all_goals
    intro w hw
    try dsimp only at hw
    first
    | exact hst w hw
    | (injection hw with hwe; omega)

theorem scanAbs_weekday_range (cs : List Char) (num : Nat) (st f : AbsFields)
    (hscan : scanAbs cs num st = .ok f)
    (hst : ∀ w, st.weekday = some w → 1 ≤ w ∧ w ≤ 7) :
    ∀ w, f.weekday = some w → 1 ≤ w ∧ w ≤ 7 := by
  induction cs generalizing num st with
  | nil =>
    rw [scanAbs] at hscan
    injection hscan with he
    subst he
    exact hst
  | cons c cs ih =>
    rw [scanAbs] at hscan
    by_cases hd : c.isDigit = true
    · rw [if_pos hd] at hscan
      exact ih _ _ hscan hst
    · rw [if_neg hd] at hscan
      cases happ : applyUnit c num st with
      | error e => rw [happ] at hscan; cases hscan
      | ok st' =>
        rw [happ] at hscan
        exact ih _ _ hscan (applyUnit_weekday c num st st' happ hst)

theorem weekdayAdjust_of_no_weekday (nowDate : Ymd) (f : AbsFields)
    (h : f.weekday = none ∨ f.day.isSome = true) :
    weekdayAdjust nowDate f = f := by
  unfold weekdayAdjust
  rcases hw : f.weekday with _ | w
  · rfl
  · rcases hd : f.day with _ | d
    · rcases h with h | h
      · rw [hw] at h; cases h
      · rw [hd] at h; cases h
    · rfl

/-- The successful-parse inversion: a `.ok` result pins down the composed
local date-time and its conversion to UTC. -/
theorem parse_absolute_time_ok (input : String) (nowDate : Ymd)
    (offsetHours : Int) (f : AbsFields) (r : Int)
    (hscan : scanAbs input.data 0 emptyFields = .ok f)
    (hok : parse_absolute_time input nowDate offsetHours = .ok r) :
    validYmd ⟨(weekdayAdjust nowDate f).year.getD nowDate.year,
              (weekdayAdjust nowDate f).month.getD nowDate.month,
              (weekdayAdjust nowDate f).day.getD nowDate.day⟩ = true ∧
    (weekdayAdjust nowDate f).hour.getD 0 ≤ 23 ∧
    (weekdayAdjust nowDate f).minute.getD 0 ≤ 59 ∧
    (weekdayAdjust nowDate f).second.getD 0 ≤ 59 ∧
    r = daysFromCivil ⟨(weekdayAdjust nowDate f).year.getD nowDate.year,
                       (weekdayAdjust nowDate f).month.getD nowDate.month,
                       (weekdayAdjust nowDate f).day.getD nowDate.day⟩ * 86400
        + ((weekdayAdjust nowDate f).hour.getD 0 : Int) * 3600
        + ((weekdayAdjust nowDate f).minute.getD 0 : Int) * 60
        + ((weekdayAdjust nowDate f).second.getD 0 : Int)
        - offsetHours * 3600 := by
  unfold parse_absolute_time at hok
  rw [hscan] at hok
  dsimp only at hok
  by_cases hc : (validYmd ⟨(weekdayAdjust nowDate f).year.getD nowDate.year,
      (weekdayAdjust nowDate f).month.getD nowDate.month,
      (weekdayAdjust nowDate f).day.getD nowDate.day⟩
      && decide ((weekdayAdjust nowDate f).hour.getD 0 ≤ 23)
      && decide ((weekdayAdjust nowDate f).minute.getD 0 ≤ 59)
      && decide ((weekdayAdjust nowDate f).second.getD 0 ≤ 59)) = true
  · rw [if_pos hc] at hok
    injection hok with he
    rw [Bool.and_eq_true, Bool.and_eq_true, Bool.and_eq_true] at hc
    refine ⟨hc.1.1.1, ?_, ?_, ?_, he.symm⟩
    · exact of_decide_eq_true hc.1.1.2
    · exact of_decide_eq_true hc.1.2
    · exact of_decide_eq_true hc.2
  · rw [if_neg hc] at hok
    cases hok

theorem weekdayFromMonday_bounds (d : Ymd) :
    0 ≤ weekdayFromMonday d ∧ weekdayFromMonday d < 7 := by
  unfold weekdayFromMonday
  constructor
  · exact Int.emod_nonneg _ (by norm_num)
  · exact Int.emod_lt_of_pos _ (by norm_num)

/-- The weekday target is a valid date, strictly after "now", at most 7 days
ahead, and falls on the requested weekday. -/
theorem weekdayTarget_spec (nowDate : Ymd) (w : Nat) (hva : validArith nowDate)
    (hw1 : 1 ≤ w) (hw7 : w ≤ 7) :
    validArith (weekdayTarget nowDate w) ∧
    daysFromCivil nowDate < daysFromCivil (weekdayTarget nowDate w) ∧
    daysFromCivil (weekdayTarget nowDate w) ≤ daysFromCivil nowDate + 7 ∧
    (daysFromCivil (weekdayTarget nowDate w) + 3) % 7 = (w : Int) - 1 := by
  obtain ⟨hwm0, hwm7⟩ := weekdayFromMonday_bounds nowDate
  unfold weekdayTarget
  by_cases hc : (w : Int) - 1 - weekdayFromMonday nowDate ≤ 0
  · rw [if_pos hc]
    have hk : ((((w : Int) - 1 - weekdayFromMonday nowDate + 7)).toNat : Int) =
        (w : Int) - 1 - weekdayFromMonday nowDate + 7 :=
      Int.toNat_of_nonneg (by omega)
    refine ⟨validArith_succIter nowDate hva _, ?_, ?_, ?_⟩ <;>
      rw [daysFromCivil_succIter nowDate hva _, hk] <;>
      unfold weekdayFromMonday at * <;> omega
  · rw [if_neg hc]
    have hk : ((((w : Int) - 1 - weekdayFromMonday nowDate)).toNat : Int) =
        (w : Int) - 1 - weekdayFromMonday nowDate :=
      Int.toNat_of_nonneg (by omega)
    refine ⟨validArith_succIter nowDate hva _, ?_, ?_, ?_⟩ <;>
      rw [daysFromCivil_succIter nowDate hva _, hk] <;>
      unfold weekdayFromMonday at * <;> omega

/-- C4: for every absolute-time token with a weekday field and no explicit
day field that parses successfully, the resolved local date (read off the
result instant) is the next occurrence of that weekday strictly after the
current local date: strictly later, at most 7 days ahead, on the requested
weekday, minimal among such days — and if the current day already is the
target weekday, exactly 7 days later, never the current day. -/
theorem c4_weekday_next (input : String) (nowDate : Ymd) (off : Int)
    (hva : validArith nowDate) (f : AbsFields) (w : Nat) (r : Int)
    (hscan : scanAbs input.data 0 emptyFields = .ok f)
    (hw : f.weekday = some w) (hd : f.day = none)
    (hok : parse_absolute_time input nowDate off = .ok r) :
    daysFromCivil nowDate < (r + off * 3600) / 86400 ∧
    (r + off * 3600) / 86400 ≤ daysFromCivil nowDate + 7 ∧
    ((r + off * 3600) / 86400 + 3) % 7 = (w : Int) - 1 ∧
    ((daysFromCivil nowDate + 3) % 7 = (w : Int) - 1 →
      (r + off * 3600) / 86400 = daysFromCivil nowDate + 7) ∧
    (∀ z : Int, daysFromCivil nowDate < z → (z + 3) % 7 = (w : Int) - 1 →
      (r + off * 3600) / 86400 ≤ z) := by
  have hwr : 1 ≤ w ∧ w ≤ 7 := by
    refine scanAbs_weekday_range input.data 0 emptyFields f hscan ?_ w hw
    intro w0 hw0
    cases hw0
  have hp := parse_absolute_time_ok input nowDate off f r hscan hok
  have hadj : weekdayAdjust nowDate f =
      { f with day := some (weekdayTarget nowDate w).day,
               month := some (weekdayTarget nowDate w).month,
               year := some (weekdayTarget nowDate w).year } := by
    unfold weekdayAdjust
    rw [hw, hd]
  rw [hadj] at hp
  dsimp only at hp
  simp only [Option.getD_some] at hp
  have heta : (⟨(weekdayTarget nowDate w).year, (weekdayTarget nowDate w).month,
      (weekdayTarget nowDate w).day⟩ : Ymd) = weekdayTarget nowDate w := rfl
  rw [heta] at hp
  obtain ⟨hvy, hh, hmi, hs, hr⟩ := hp
  obtain ⟨hts, htlt, htle, htw⟩ := weekdayTarget_spec nowDate w hva hwr.1 hwr.2
  have hday : (r + off * 3600) / 86400 = daysFromCivil (weekdayTarget nowDate w) := by
    omega
  refine ⟨?_, ?_, ?_, ?_, ?_⟩
  · omega
  · omega
  · omega
  · intro hnow
    omega
  · intro z hz1 hz2
    omega

/-- Closed instance for C4: on local Monday 2026-10-12, the token "3w"
(weekday 3 = Wednesday, no explicit day) resolves strictly after the current
day, to the requested weekday (2026-10-14). -/
theorem c4_weekday_next_witness :
    validArith ⟨2026, 10, 12⟩ ∧
    scanAbs "3w".data 0 emptyFields =
      .ok ⟨none, none, none, none, none, none, some 3⟩ ∧
    parse_absolute_time "3w" ⟨2026, 10, 12⟩ 3 = .ok 1791925200 ∧
    daysFromCivil ⟨2026, 10, 12⟩ < ((1791925200 : Int) + 3 * 3600) / 86400 ∧
    (((1791925200 : Int) + 3 * 3600) / 86400 + 3) % 7 = (3 : Int) - 1 := by
  refine ⟨by decide, rfl, rfl, ?_, ?_⟩
  · exact (c4_weekday_next "3w" ⟨2026, 10, 12⟩ 3 (by decide)
      ⟨none, none, none, none, none, none, some 3⟩ 3 1791925200 rfl rfl rfl rfl).1
  · exact (c4_weekday_next "3w" ⟨2026, 10, 12⟩ 3 (by decide)
      ⟨none, none, none, none, none, none, some 3⟩ 3 1791925200 rfl rfl rfl rfl).2.2.1

/-- C6 (amended): for every absolute-time token that parses successfully and
does not supply a weekday without an explicit day, any of year/month/day not
supplied defaults to the current local date's component, any of
hour/minute/second not supplied defaults to 0, and the result is the
composed local date-time converted to UTC by subtracting the configured
integer hour offset. -/
theorem c6_amended_defaults (input : String) (nowDate : Ymd) (off : Int)
    (f : AbsFields) (r : Int)
    (hscan : scanAbs input.data 0 emptyFields = .ok f)
    (hwd : f.weekday = none ∨ f.day.isSome = true)
    (hok : parse_absolute_time input nowDate off = .ok r) :
    r = daysFromCivil ⟨f.year.getD nowDate.year, f.month.getD nowDate.month,
                       f.day.getD nowDate.day⟩ * 86400
        + (f.hour.getD 0 : Int) * 3600 + (f.minute.getD 0 : Int) * 60
        + (f.second.getD 0 : Int) - off * 3600 := by
  have hp := parse_absolute_time_ok input nowDate off f r hscan hok
  rw [weekdayAdjust_of_no_weekday nowDate f hwd] at hp
  exact hp.2.2.2.2

/-- Closed instance for C6 (amended): "5M2d7h" on local date 2026-10-12
resolves to 2026-05-02 07:00 local (year defaulted from "now", minute and
second defaulted to 0) minus the 3-hour offset. -/
theorem c6_amended_defaults_witness :
    scanAbs "5M2d7h".data 0 emptyFields =
      .ok ⟨none, some 5, some 2, some 7, none, none, none⟩ ∧
    parse_absolute_time "5M2d7h" ⟨2026, 10, 12⟩ 3 = .ok 1777694400 ∧
    (1777694400 : Int) =
      daysFromCivil ⟨2026, 5, 2⟩ * 86400 + 7 * 3600 + 0 * 60 + 0 - 3 * 3600 := by
  refine ⟨rfl, rfl, ?_⟩
  exact (c6_amended_defaults "5M2d7h" ⟨2026, 10, 12⟩ 3
    ⟨none, some 5, some 2, some 7, none, none, none⟩ 1777694400
    rfl (Or.inl rfl) rfl).trans (by decide)

end Ttd
